import Mathlib

/-!
Verification development for the blocked random-access streaming sampler
(scDataset) specified by this repository.  The repository source consists of
a tutorial notebook (src/tahoe_tutorial.ipynb) that configures and consumes
the sampler; the sampler core itself is not part of the source tree, so its
operations are modelled from the specification, while the batch_transform function of the notebook is embedded directly from the notebook source.
-/

namespace SCD

/-- Modelled from the spec: iteration mode of the loader, enum {Train, Eval}
(spec section 3, Data Model).  The sampler implementation is missing from
src/, only the notebook that configures it is present. -/
inductive Mode where
  | train
  | eval
deriving DecidableEq, Repr

/-- Modelled from the spec: configuration surface of the loader
(spec section 6): batch_size, block_size, fetch_factor, the active subset
of row indices and the iteration mode, together with the borrowed dataset
handle length.  The sampler implementation is missing from src/. -/
structure Config where
  dataset_len : Nat
  batch_size : Nat
  block_size : Nat
  fetch_factor : Nat
  subset : List Nat
  mode : Mode
deriving DecidableEq, Repr

/-- Fuel-indexed worker splitting a list into consecutive chunks of `n`
elements, the last chunk possibly shorter.  Structural recursion on the
fuel keeps the function kernel-reducible. -/
def chunksAux (n : Nat) : Nat → List α → List (List α)
  | _, [] => []
  | 0, _ :: _ => []
  | fuel + 1, x :: xs =>
    if n = 0 then [] else (x :: xs).take n :: chunksAux n fuel ((x :: xs).drop n)

/-- Modelled from the spec: partition of an ordered index sequence into
contiguous blocks of `n` indices, the last block possibly short
(spec section 3, Block).  The sampler implementation is missing from src/. -/
def chunks (n : Nat) (l : List α) : List (List α) :=
  chunksAux n l.length l

/-- Linear congruential step used as the deterministic pseudo-random
number source. -/
def lcg (s : Nat) : Nat :=
  (1103515245 * s + 12345) % 2147483648

/-- Pseudo-random sort key for position `i` under pass seed `seed`. -/
def randKey (seed i : Nat) : Nat :=
  lcg (lcg seed + 2654435761 * i + 97)

/-- Derived shuffle seed for the super-block with index `i` of the pass with
seed `seed`; the pass seed is fixed once per pass and every per-pool seed is
a pure function of it. -/
def mixSeed (seed i : Nat) : Nat :=
  lcg (seed + 1000003 * i + 1)

/-- Modelled from the spec: seeded random permutation of a list
(spec section 4.1 and 4.3), realised by sorting on pseudo-random keys drawn
from the seed.  The sampler implementation is missing from src/. -/
def shuffleList (seed : Nat) (l : List α) : List α :=
  ((l.enum.map (fun p => (randKey seed p.1, p.2))).insertionSort
      (fun a b => a.1 ≤ b.1)).map Prod.snd

/-- Modelled from the spec: the blocks of the current configuration, i.e. the
partition of the active subset into contiguous groups of `block_size`
indices (spec section 3).  The sampler implementation is missing from src/. -/
def blocksOf (cfg : Config) : List (List Nat) :=
  chunks cfg.block_size cfg.subset

/-- Modelled from the spec: block sequence visited during one pass
(spec section 4.1, IndexPlan): Eval keeps the block order of the subset, Train
applies a fresh seeded permutation of whole blocks.  The sampler
implementation is missing from src/. -/
def planBlocks (cfg : Config) (seed : Nat) : List (List Nat) :=
  match cfg.mode with
  | .eval => blocksOf cfg
  | .train => shuffleList seed (blocksOf cfg)

/-- Modelled from the spec: the IndexPlan output, the ordered sequence of
row indices visited this pass (spec section 4.1).  The sampler
implementation is missing from src/. -/
def indexPlan (cfg : Config) (seed : Nat) : List Nat :=
  (planBlocks cfg seed).flatten

/-- Modelled from the spec: grouping of the per-pass block sequence into
super-block groups of `fetch_factor` consecutive blocks, the final group
possibly smaller (spec section 4.3).  The sampler implementation is missing
from src/. -/
def superGroups (cfg : Config) (seed : Nat) : List (List (List Nat)) :=
  chunks cfg.fetch_factor (planBlocks cfg seed)

/-- Modelled from the spec: the super-blocks of a pass, each the
concatenation of the fetched blocks of one group (spec section 3,
SuperBlock).  The sampler implementation is missing from src/. -/
def superBlocks (cfg : Config) (seed : Nat) : List (List Nat) :=
  (superGroups cfg seed).map List.flatten

/-- Modelled from the spec: within-pool row shuffle applied to the
super-block with index `i` (spec section 4.3): a seeded permutation in
Train mode, the identity in Eval mode.  The sampler implementation is
missing from src/. -/
def poolShuffle (cfg : Config) (seed i : Nat) (pool : List ρ) : List ρ :=
  match cfg.mode with
  | .eval => pool
  | .train => shuffleList (mixSeed seed i) pool

/-- Helper applying `poolShuffle` to each pool of a list, numbering the pools
consecutively starting at `i`. -/
def poolShuffleFrom (cfg : Config) (seed : Nat) : Nat → List (List ρ) → List (List ρ)
  | _, [] => []
  | i, p :: ps => poolShuffle cfg seed i p :: poolShuffleFrom cfg seed (i + 1) ps

/-- Modelled from the spec: the super-block pools of a pass after the
mode-dependent within-pool shuffle (spec section 4.3).  The sampler
implementation is missing from src/. -/
def shuffledPools (cfg : Config) (seed : Nat) : List (List Nat) :=
  poolShuffleFrom cfg seed 0 (superBlocks cfg seed)

/-- Modelled from the spec: BatchEmitter slicing one pool into consecutive
runs of `batch_size` rows, the last slice possibly shorter
(spec section 4.4).  The sampler implementation is missing from src/. -/
def emitBatches (cfg : Config) (pool : List ρ) : List (List ρ) :=
  chunks cfg.batch_size pool

/-- Modelled from the spec: the full single-context pass at the level of row
indices: plan, group into super-blocks, shuffle each pool, emit batches
(spec sections 2 and 4).  The sampler implementation is missing from src/. -/
def runPass (cfg : Config) (seed : Nat) : List (List Nat) :=
  ((shuffledPools cfg seed).map (emitBatches cfg)).flatten

/-- Round-robin slice of a list: the elements whose position is congruent to
`j` modulo `n`, positions counted from `i`. -/
def everyNth (n j : Nat) : Nat → List β → List β
  | _, [] => []
  | i, x :: xs =>
    if i % n = j then x :: everyNth n j (i + 1) xs else everyNth n j (i + 1) xs

/-- Modelled from the spec: the batch stream of execution context `j` out of
`n`, owning the super-blocks assigned to it round-robin (spec section 5).
The sampler implementation is missing from src/. -/
def ctxBatches (cfg : Config) (seed n j : Nat) : List (List Nat) :=
  ((everyNth n j 0 (shuffledPools cfg seed)).map (emitBatches cfg)).flatten

/-- Modelled from the spec: a full pass executed by `n` independent contexts,
the global batch order being the deterministic concatenation of the
per-context streams (spec section 5).  The sampler implementation is
missing from src/. -/
def runPassMulti (cfg : Config) (seed n : Nat) : List (List Nat) :=
  ((List.range n).map (ctxBatches cfg seed n)).flatten

/-- Modelled from the spec: the same multi-context pass at the level of
fetched row payloads, `row` being the per-row content held by the dataset handle.
The sampler implementation is missing from src/. -/
def runPassMultiData (row : Nat → ρ) (cfg : Config) (seed n : Nat) : List (List ρ) :=
  (runPassMulti cfg seed n).map (List.map row)

/-- Modelled from the spec: configuration-time error taxonomy
(spec section 7).  The sampler implementation is missing from src/. -/
inductive ConfigError where
  | invalidBatchSize
  | invalidBlockSize
  | invalidFetchFactor
  | subsetOutOfBounds
deriving DecidableEq, Repr

/-- Modelled from the spec: loader construction with configuration-time
validation (spec sections 6 and 7): batch_size, block_size and fetch_factor
must be positive and every subset index must be below the dataset length.
The sampler implementation is missing from src/. -/
def scDatasetInit (dataset_len : Nat) (batch_size block_size fetch_factor : Int)
    (idx : List Nat) : Except ConfigError Config :=
  if batch_size ≤ 0 then .error .invalidBatchSize
  else if block_size ≤ 0 then .error .invalidBlockSize
  else if fetch_factor ≤ 0 then .error .invalidFetchFactor
  else if idx.all (fun i => i < dataset_len) then
    .ok { dataset_len := dataset_len, batch_size := batch_size.toNat,
          block_size := block_size.toNat, fetch_factor := fetch_factor.toNat,
          subset := idx, mode := .eval }
  else .error .subsetOutOfBounds

/-- Modelled from the spec: the subset(indices) configuration operation
(spec section 6), restricting visitation to the given ordered index
sequence.  The sampler implementation is missing from src/. -/
def subsetUpd (idx : List Nat) (cfg : Config) : Config :=
  { cfg with subset := idx }

/-- Modelled from the spec: the set_mode configuration operation
(spec section 6), selecting the shuffling behaviour of subsequent passes.
The sampler implementation is missing from src/. -/
def set_mode (m : Mode) (cfg : Config) : Config :=
  { cfg with mode := m }

/-- Modelled from the spec: backend fetch failure (spec section 7).  The
sampler implementation is missing from src/. -/
inductive FetchError where
  | backendFailure
deriving DecidableEq, Repr

/-- Modelled from the spec: assembling one super-block by fetching each of
its blocks through the dataset handle; the first backend failure is
propagated, never retried (spec sections 4.2 and 4.3).  The sampler
implementation is missing from src/. -/
def fetchSuper (fetch : List Nat → Except FetchError (List ρ)) :
    List (List Nat) → Except FetchError (List ρ)
  | [] => .ok []
  | b :: bs =>
    match fetch b with
    | .error e => .error e
    | .ok r =>
      match fetchSuper fetch bs with
      | .error e => .error e
      | .ok rs => .ok (r ++ rs)

/-- Modelled from the spec: fallible pass over a list of super-block groups
beginning at pool index `i`: groups are fetched in order, each successful
pool is shuffled and sliced into batches, and the first fetch failure stops
the pass, surfacing the error after the batches of the earlier groups
(spec sections 4.5 and 7).  The sampler implementation is missing from
src/. -/
def runPassEAux (cfg : Config) (seed : Nat)
    (fetch : List Nat → Except FetchError (List ρ)) :
    Nat → List (List (List Nat)) → List (List ρ) × Option FetchError
  | _, [] => ([], none)
  | i, g :: gs =>
    match fetchSuper fetch g with
    | .error e => ([], some e)
    | .ok pool =>
      let rest := runPassEAux cfg seed fetch (i + 1) gs
      (emitBatches cfg (poolShuffle cfg seed i pool) ++ rest.1, rest.2)

/-- Modelled from the spec: the full fallible pass, returning the batches
delivered before any backend failure together with the failure signal
surfaced to the consumer (spec section 7).  The sampler implementation is
missing from src/. -/
def runPassE (cfg : Config) (seed : Nat)
    (fetch : List Nat → Except FetchError (List ρ)) :
    List (List ρ) × Option FetchError :=
  runPassEAux cfg seed fetch 0 (superGroups cfg seed)

/-! Embedding of the `batch_transform` notebook function (src/tahoe_tutorial.ipynb).
Scalar values are kept abstract; numpy/torch dtypes are modelled as tags. -/

/-- Dtype tag of a numpy array or torch tensor, as far as the
transform distinguishes them. -/
inductive DType where
  | float32
  | int64
  | intPlatform
  | other
deriving DecidableEq, Repr

/-- Dense 2-D numpy-style array: a dtype tag and a list of rows. -/
structure NdArray (α : Type) where
  dtype : DType
  rows : List (List α)
deriving DecidableEq, Repr

/-- Matrix at the scipy boundary: either a dense ndarray or a sparse matrix
given by a column count and per-row (column, value) entry lists. -/
inductive SciArr (α : Type) where
  | dense (a : NdArray α)
  | sparse (dtype : DType) (ncols : Nat) (entries : List (List (Nat × α)))
deriving DecidableEq, Repr

/-- Embedded from src/tahoe_tutorial.ipynb: the `.astype` conversion used as
`batch.X.astype` with target dtype float32; it retags the array and casts
every stored value, preserving sparsity structure. -/
def SciArr.astype (m : SciArr α) (d : DType) (cast : α → α) : SciArr α :=
  match m with
  | .dense a => .dense ⟨d, a.rows.map (List.map cast)⟩
  | .sparse _ n entries => .sparse d n (entries.map (List.map (fun p => (p.1, cast p.2))))

/-- Embedded from src/tahoe_tutorial.ipynb: the `sparse.issparse` test. -/
def SciArr.issparse : SciArr α → Bool
  | .dense _ => false
  | .sparse _ _ _ => true

/-- Embedded from src/tahoe_tutorial.ipynb: the `.toarray` densification of
a sparse matrix, filling absent columns with the zero element. -/
def SciArr.toarray (m : SciArr α) (zero : α) : NdArray α :=
  match m with
  | .dense a => a
  | .sparse d n entries =>
    ⟨d, entries.map (fun row => (List.range n).map (fun j => ((List.lookup j row).getD zero)))⟩

/-- Underlying dense array of a matrix already known to be dense. -/
def SciArr.denseArr : SciArr α → NdArray α
  | .dense a => a
  | .sparse d _ _ => ⟨d, []⟩

/-- Number of rows of a matrix. -/
def SciArr.nrows : SciArr α → Nat
  | .dense a => a.rows.length
  | .sparse _ _ entries => entries.length

/-- Number of columns of a matrix (for a dense array, the width of its first
row). -/
def SciArr.ncolsOf : SciArr α → Nat
  | .dense a => ((a.rows.headD [])).length
  | .sparse _ n _ => n

/-- Dense 2-D torch tensor: dtype tag and row-major data. -/
structure Tensor2 (α : Type) where
  dtype : DType
  data : List (List α)
deriving DecidableEq, Repr

/-- Dense 1-D torch tensor: dtype tag and data. -/
structure Tensor1 (α : Type) where
  dtype : DType
  data : List α
deriving DecidableEq, Repr

/-- Embedded from src/tahoe_tutorial.ipynb: `torch.from_numpy` on a 2-D
array, preserving dtype and contents. -/
def torch_from_numpy (a : NdArray α) : Tensor2 α :=
  ⟨a.dtype, a.rows⟩

/-- Embedded from src/tahoe_tutorial.ipynb: `torch.from_numpy` on a 1-D
integer array of the given platform dtype. -/
def torch_from_numpy1 (d : DType) (v : List β) : Tensor1 β :=
  ⟨d, v⟩

/-- Embedded from src/tahoe_tutorial.ipynb: the `.long()` cast to an int64
tensor. -/
def Tensor1.long (t : Tensor1 Nat) : Tensor1 Int :=
  ⟨DType.int64, t.data.map Int.ofNat⟩

/-- AnnData batch as `batch_transform` consumes it: the X matrix and the
obs cell_line column. -/
structure AnnBatch (α L : Type) where
  X : SciArr α
  cell_line : List L
deriving DecidableEq, Repr

/-- Embedded from src/tahoe_tutorial.ipynb, function `batch_transform`:
cast X to float32, densify via toarray when sparse, convert to a torch
tensor; encode the cell_line labels with the label encoder `enc` and
convert them to an int64 tensor. -/
def batch_transform (cast : α → α) (zero : α) (enc : L → Nat)
    (batch : AnnBatch α L) : Tensor2 α × Tensor1 Int :=
  let X1 := batch.X.astype DType.float32 cast
  let X2 : NdArray α := if X1.issparse then X1.toarray zero else X1.denseArr
  let Xt := torch_from_numpy X2
  let y := batch.cell_line.map enc
  let yt := (torch_from_numpy1 DType.intPlatform y).long
  (Xt, yt)

/-! Concrete instances used by the witness theorems. -/

/-- Scenario configuration of the specification: subset [0..99],
block_size 10, fetch_factor 2, batch_size 5, Eval mode. -/
def cfgScenario : Config :=
  ⟨100, 5, 10, 2, List.range 100, Mode.eval⟩

/-- Small Train-mode configuration. -/
def cfgTrainEx : Config :=
  ⟨10, 3, 2, 2, [5, 0, 7, 1, 9, 2, 4], Mode.train⟩

/-- Small Eval-mode configuration whose pass has three single-block
super-blocks. -/
def cfgEvalEx : Config :=
  ⟨6, 2, 2, 1, [0, 1, 2, 3, 4, 5], Mode.eval⟩

/-- Configuration whose subset size divides neither the block size nor the
super-block size. -/
def cfgOddEx : Config :=
  ⟨10, 2, 3, 2, [3, 1, 4, 1, 5, 9, 2], Mode.eval⟩

/-- Fetch function failing exactly on the third block [4, 5] of
`cfgEvalEx` and returning each requested index as its own row otherwise. -/
def fetchFailEx : List Nat → Except FetchError (List Nat) :=
  fun b => if b = [4, 5] then .error .backendFailure else .ok b

/-- Small sparse AnnData batch: two rows, three columns, labels [1, 2]. -/
def annEx : AnnBatch Int Nat :=
  ⟨SciArr.sparse DType.other 3 [[(0, 5)], [(2, 7)]], [1, 2]⟩

/-! Basic facts about `chunksAux` and `chunks`. -/

/-- Chunking the empty list yields no chunks, for any fuel. -/
theorem chunksAux_nil (n fuel : Nat) : chunksAux n fuel ([] : List α) = [] := by
  cases fuel <;> rfl

/-- Unfolding equation of `chunksAux` on a nonempty list with positive fuel. -/
theorem chunksAux_cons (n fuel : Nat) (x : α) (xs : List α) (hn : n ≠ 0) :
    chunksAux n (fuel + 1) (x :: xs) =
      (x :: xs).take n :: chunksAux n fuel ((x :: xs).drop n) := by
  simp [chunksAux, hn]

/-- Fuel irrelevance: any fuel at least the list length gives the same chunks. -/
theorem chunksAux_congr (n : Nat) :
    ∀ (f1 f2 : Nat) (l : List α), l.length ≤ f1 → l.length ≤ f2 →
      chunksAux n f1 l = chunksAux n f2 l := by
  intro f1
  induction f1 with
  | zero =>
    intro f2 l h1 _
    have hl : l = [] := by
      cases l with
      | nil => rfl
      | cons a as => simp at h1
    subst hl
    simp [chunksAux_nil]
  | succ f ih =>
    intro f2 l h1 h2
    cases l with
    | nil => simp [chunksAux_nil]
    | cons x xs =>
      cases f2 with
      | zero => simp at h2
      | succ f2 =>
        by_cases hn : n = 0
        · subst hn; simp [chunksAux]
        · rw [chunksAux_cons n f x xs hn, chunksAux_cons n f2 x xs hn]
          congr 1
          refine ih f2 ((x :: xs).drop n) ?_ ?_ <;>
            · simp only [List.length_drop, List.length_cons] at *
              omega

/-- Identification of `chunks` with any sufficiently fueled `chunksAux`. -/
theorem chunks_eq_chunksAux (n fuel : Nat) (l : List α) (h : l.length ≤ fuel) :
    chunks n l = chunksAux n fuel l :=
  chunksAux_congr n l.length fuel l le_rfl h

/-- Chunking the empty list yields no chunks. -/
theorem chunks_nil (n : Nat) : chunks n ([] : List α) = [] := rfl

/-- Chunking with width zero yields no chunks. -/
theorem chunks_zero (l : List α) : chunks 0 l = [] := by
  cases l <;> rfl

/-- Unfolding equation of `chunks` on a nonempty list with positive width. -/
theorem chunks_cons (n : Nat) (l : List α) (hn : n ≠ 0) (hl : l ≠ []) :
    chunks n l = l.take n :: chunks n (l.drop n) := by
  cases l with
  | nil => exact absurd rfl hl
  | cons x xs =>
    show chunksAux n (xs.length + 1) (x :: xs) = _
    rw [chunksAux_cons n xs.length x xs hn]
    congr 1
    refine (chunks_eq_chunksAux n xs.length _ ?_).symm
    simp only [List.length_drop, List.length_cons]
    omega

/-- Chunks of a nonempty list form a nonempty list. -/
theorem chunks_ne_nil (n : Nat) (hn : n ≠ 0) (l : List α) (hl : l ≠ []) :
    chunks n l ≠ [] := by
  cases l with
  | nil => exact absurd rfl hl
  | cons x xs => rw [chunks_cons n _ hn (by simp)]; simp

/-- Concatenating the chunks recovers the original list: the chunking
partitions the list. -/
theorem chunks_flatten (n : Nat) (hn : n ≠ 0) (l : List α) :
    (chunks n l).flatten = l := by
  cases l with
  | nil => simp [chunks_nil]
  | cons x xs =>
    rw [chunks_cons n (x :: xs) hn (by simp), List.flatten_cons,
      chunks_flatten n hn ((x :: xs).drop n), List.take_append_drop]
termination_by l.length
decreasing_by
  simp only [List.length_drop, List.length_cons]
  omega

/-- The number of chunks is the length of the list divided by the width,
rounded up. -/
theorem chunks_length (n : Nat) (hn : n ≠ 0) (l : List α) :
    (chunks n l).length = (l.length + n - 1) / n := by
  have hpos : 0 < n := Nat.pos_of_ne_zero hn
  cases l with
  | nil =>
    simp only [chunks_nil, List.length_nil]
    rw [Nat.div_eq_of_lt (by omega)]
  | cons x xs =>
    rw [chunks_cons n (x :: xs) hn (by simp), List.length_cons,
      chunks_length n hn ((x :: xs).drop n)]
    simp only [List.length_drop, List.length_cons]
    by_cases h : xs.length + 1 ≤ n
    · have h1 : xs.length + 1 - n + n - 1 = n - 1 := by omega
      have h2 : xs.length + 1 + n - 1 = xs.length + n := by omega
      rw [h1, h2, Nat.add_div_right _ hpos,
        Nat.div_eq_of_lt (by omega), Nat.div_eq_of_lt (by omega)]
    · have h1 : xs.length + 1 - n + n - 1 = xs.length := by omega
      have h2 : xs.length + 1 + n - 1 = xs.length + n := by omega
      rw [h1, h2, Nat.add_div_right _ hpos]
termination_by l.length
decreasing_by
  simp only [List.length_drop, List.length_cons]
  omega

/-- Exhausted fuel yields no chunks. -/
theorem chunksAux_fuel_zero (n : Nat) (l : List α) : chunksAux n 0 l = [] := by
  cases l <;> rfl

/-- With positive width and positive fuel, a nonempty list has a nonempty
chunk list. -/
theorem chunksAux_ne_nil (n : Nat) (hn : n ≠ 0) (fuel : Nat) (l : List α)
    (hl : l ≠ []) (hf : 1 ≤ fuel) : chunksAux n fuel l ≠ [] := by
  cases fuel with
  | zero => omega
  | succ f =>
    cases l with
    | nil => exact absurd rfl hl
    | cons x xs => rw [chunksAux_cons n f x xs hn]; simp

/-- Every chunk produced by `chunksAux` is nonempty and no longer than the
chunk width. -/
theorem chunksAux_mem (n : Nat) (hn : n ≠ 0) :
    ∀ (fuel : Nat) (l : List α) (c : List α), c ∈ chunksAux n fuel l →
      c ≠ [] ∧ c.length ≤ n := by
  intro fuel
  induction fuel with
  | zero =>
    intro l c hc
    rw [chunksAux_fuel_zero] at hc
    exact absurd hc (List.not_mem_nil c)
  | succ f ih =>
    intro l c hc
    cases l with
    | nil => rw [chunksAux_nil] at hc; exact absurd hc (List.not_mem_nil c)
    | cons x xs =>
      rw [chunksAux_cons n f x xs hn] at hc
      rcases List.mem_cons.mp hc with h | h
      · subst h
        refine ⟨?_, ?_⟩
        · simp [List.take_eq_nil_iff, hn]
        · rw [List.length_take]; exact min_le_left _ _
      · exact ih _ c h

/-- Every chunk is nonempty and no longer than the chunk width. -/
theorem chunks_mem (n : Nat) (hn : n ≠ 0) (l : List α) (c : List α)
    (hc : c ∈ chunks n l) : c ≠ [] ∧ c.length ≤ n :=
  chunksAux_mem n hn l.length l c hc

/-- Every chunk of `chunksAux` except possibly the last has length exactly
the width. -/
theorem chunksAux_dropLast_length (n : Nat) (hn : n ≠ 0) :
    ∀ (fuel : Nat) (l : List α) (c : List α), l.length ≤ fuel →
      c ∈ (chunksAux n fuel l).dropLast → c.length = n := by
  intro fuel
  induction fuel with
  | zero =>
    intro l c _ hc
    rw [chunksAux_fuel_zero] at hc
    exact absurd hc (List.not_mem_nil c)
  | succ f ih =>
    intro l c hlen hc
    cases l with
    | nil => rw [chunksAux_nil] at hc; exact absurd hc (List.not_mem_nil c)
    | cons x xs =>
      rw [chunksAux_cons n f x xs hn] at hc
      by_cases hd : (x :: xs).drop n = []
      · rw [hd, chunksAux_nil] at hc
        simp at hc
      · have hf1 : 1 ≤ f := by
          have h1 : n < (x :: xs).length := by
            rcases Nat.lt_or_ge n (x :: xs).length with hx | hx
            · exact hx
            · exact absurd (List.drop_eq_nil_iff.mpr hx) hd
          simp only [List.length_cons] at h1 hlen
          omega
        have hne := chunksAux_ne_nil n hn f ((x :: xs).drop n) hd hf1
        cases hcs : chunksAux n f ((x :: xs).drop n) with
        | nil => exact absurd hcs hne
        | cons c0 ct =>
          rw [hcs, List.dropLast_cons₂] at hc
          rcases List.mem_cons.mp hc with h | h
          · subst h
            have hlt : n < (x :: xs).length := by
              rcases Nat.lt_or_ge n (x :: xs).length with hx | hx
              · exact hx
              · exact absurd (List.drop_eq_nil_iff.mpr hx) hd
            rw [List.length_take]
            exact min_eq_left (le_of_lt hlt)
          · rw [← hcs] at h
            refine ih ((x :: xs).drop n) c ?_ h
            simp only [List.length_drop, List.length_cons] at *
            omega

/-- Every chunk except possibly the last has length exactly the width. -/
theorem chunks_dropLast_length (n : Nat) (hn : n ≠ 0) (l : List α) (c : List α)
    (hc : c ∈ (chunks n l).dropLast) : c.length = n :=
  chunksAux_dropLast_length n hn l.length l c le_rfl hc

/-- When the width does not divide the list length, the final chunk of
`chunksAux` has the remainder as its length. -/
theorem chunksAux_getLast_mod (n : Nat) (hn : n ≠ 0) :
    ∀ (fuel : Nat) (l : List α), l.length ≤ fuel → l ≠ [] → ¬ n ∣ l.length →
      ∃ c, (chunksAux n fuel l).getLast? = some c ∧ c.length = l.length % n := by
  intro fuel
  induction fuel with
  | zero =>
    intro l hlen hl _
    cases l with
    | nil => exact absurd rfl hl
    | cons x xs => simp at hlen
  | succ f ih =>
    intro l hlen hl hnd
    cases l with
    | nil => exact absurd rfl hl
    | cons x xs =>
      rw [chunksAux_cons n f x xs hn]
      by_cases hd : (x :: xs).drop n = []
      · have hle : (x :: xs).length ≤ n := List.drop_eq_nil_iff.mp hd
        rw [hd, chunksAux_nil]
        refine ⟨(x :: xs).take n, by simp, ?_⟩
        rw [List.take_of_length_le hle]
        have hlt : (x :: xs).length < n := by
          rcases Nat.lt_or_ge (x :: xs).length n with hx | hx
          · exact hx
          · have heq : (x :: xs).length = n := le_antisymm hle hx
            exact absurd (heq ▸ dvd_refl n) hnd
        exact (Nat.mod_eq_of_lt hlt).symm
      · have hgt : n < (x :: xs).length := by
          rcases Nat.lt_or_ge n (x :: xs).length with hx | hx
          · exact hx
          · exact absurd (List.drop_eq_nil_iff.mpr hx) hd
        have hnd2 : ¬ n ∣ ((x :: xs).drop n).length := by
          rw [List.length_drop]
          intro hdvd
          refine hnd ?_
          have heq : (x :: xs).length = ((x :: xs).length - n) + n := by omega
          rw [heq]
          exact Nat.dvd_add hdvd (dvd_refl n)
        have hlen2 : ((x :: xs).drop n).length ≤ f := by
          simp only [List.length_drop, List.length_cons] at *
          omega
        obtain ⟨c, hc1, hc2⟩ := ih ((x :: xs).drop n) hlen2 hd hnd2
        refine ⟨c, ?_, ?_⟩
        · have hne := chunksAux_ne_nil n hn f ((x :: xs).drop n) hd
            (by simp only [List.length_drop, List.length_cons] at *; omega)
          cases hcs : chunksAux n f ((x :: xs).drop n) with
          | nil => exact absurd hcs hne
          | cons c0 ct =>
            rw [hcs] at hc1
            rw [List.getLast?_cons_cons]
            exact hc1
        · rw [hc2, List.length_drop]
          exact (Nat.mod_eq_sub_mod (le_of_lt hgt)).symm

/-- When the width does not divide the list length, the final chunk has the
remainder as its length. -/
theorem chunks_getLast_mod (n : Nat) (hn : n ≠ 0) (l : List α) (hl : l ≠ [])
    (hnd : ¬ n ∣ l.length) :
    ∃ c, (chunks n l).getLast? = some c ∧ c.length = l.length % n :=
  chunksAux_getLast_mod n hn l.length l le_rfl hl hnd

/-- Every chunk of `chunksAux` is a contiguous run of the original list. -/
theorem chunksAux_contig (n : Nat) :
    ∀ (fuel : Nat) (l : List α) (c : List α), c ∈ chunksAux n fuel l →
      ∃ i, c = (l.drop i).take n := by
  intro fuel
  induction fuel with
  | zero =>
    intro l c hc
    rw [chunksAux_fuel_zero] at hc
    exact absurd hc (List.not_mem_nil c)
  | succ f ih =>
    intro l c hc
    cases l with
    | nil => rw [chunksAux_nil] at hc; exact absurd hc (List.not_mem_nil c)
    | cons x xs =>
      by_cases hn : n = 0
      · subst hn
        simp [chunksAux] at hc
      · rw [chunksAux_cons n f x xs hn] at hc
        rcases List.mem_cons.mp hc with h | h
        · exact ⟨0, by simpa using h⟩
        · obtain ⟨i, hi⟩ := ih ((x :: xs).drop n) c h
          refine ⟨n + i, ?_⟩
          rw [hi, List.drop_drop]

/-- Every chunk is a contiguous run of the original list. -/
theorem chunks_contig (n : Nat) (l : List α) (c : List α) (hc : c ∈ chunks n l) :
    ∃ i, c = (l.drop i).take n :=
  chunksAux_contig n l.length l c hc

/-! Permutation facts about the seeded shuffles and the pass pipeline. -/

/-- A seeded shuffle is a permutation of its input. -/
theorem shuffleList_perm (seed : Nat) (l : List α) : (shuffleList seed l).Perm l := by
  unfold shuffleList
  have h1 := List.perm_insertionSort (fun (a b : Nat × α) => a.1 ≤ b.1)
      (l.enum.map (fun p => (randKey seed p.1, p.2)))
  have h2 := h1.map Prod.snd
  rw [List.map_map] at h2
  have h3 : l.enum.map (Prod.snd ∘ fun p : Nat × α => (randKey seed p.1, p.2)) = l :=
    List.enum_map_snd l
  rw [h3] at h2
  exact h2

/-- Pointwise permutations of the sublists induce a permutation of the
concatenations. -/
theorem forall₂_perm_flatten {l₁ l₂ : List (List α)}
    (h : List.Forall₂ (fun a b : List α => a.Perm b) l₁ l₂) :
    l₁.flatten.Perm l₂.flatten := by
  induction h with
  | nil => simp
  | cons hab htail ih =>
    simp only [List.flatten_cons]
    exact hab.append ih

/-- Each shuffled pool is a permutation of the corresponding super-block. -/
theorem poolShuffleFrom_forall₂ (cfg : Config) (seed : Nat) :
    ∀ (i : Nat) (L : List (List ρ)),
      List.Forall₂ (fun a b : List ρ => a.Perm b) (poolShuffleFrom cfg seed i L) L := by
  intro i L
  induction L generalizing i with
  | nil => exact List.Forall₂.nil
  | cons p ps ih =>
    simp only [poolShuffleFrom]
    refine List.Forall₂.cons ?_ (ih (i + 1))
    unfold poolShuffle
    cases cfg.mode
    · exact shuffleList_perm _ p
    · exact List.Perm.refl p

/-- In Eval mode the pool shuffle is the identity on every pool. -/
theorem poolShuffleFrom_eval (cfg : Config) (seed : Nat) (hm : cfg.mode = Mode.eval) :
    ∀ (i : Nat) (L : List (List ρ)), poolShuffleFrom cfg seed i L = L := by
  intro i L
  induction L generalizing i with
  | nil => rfl
  | cons p ps ih =>
    simp only [poolShuffleFrom, poolShuffle, hm]
    rw [ih]

/-- Slicing every pool into batches and flattening both levels recovers the
concatenation of the pools. -/
theorem flatten_map_emitBatches (cfg : Config) (hbs : cfg.batch_size ≠ 0)
    (L : List (List ρ)) :
    ((L.map (emitBatches cfg)).flatten).flatten = L.flatten := by
  induction L with
  | nil => simp
  | cons p ps ih =>
    simp only [List.map_cons, List.flatten_cons, List.flatten_append]
    rw [ih]
    congr 1
    exact chunks_flatten cfg.batch_size hbs p

/-- Concatenating the super-blocks of a pass gives the index plan of the pass. -/
theorem superBlocks_flatten (cfg : Config) (seed : Nat) (hf : cfg.fetch_factor ≠ 0) :
    (superBlocks cfg seed).flatten = (planBlocks cfg seed).flatten := by
  unfold superBlocks superGroups
  rw [← List.flatten_flatten, chunks_flatten cfg.fetch_factor hf]

/-- The per-pass block sequence is a permutation of the blocks of the subset. -/
theorem planBlocks_perm (cfg : Config) (seed : Nat) :
    (planBlocks cfg seed).Perm (blocksOf cfg) := by
  unfold planBlocks
  cases cfg.mode
  · exact shuffleList_perm seed (blocksOf cfg)
  · exact List.Perm.refl _

/-- The rows of all batches of a pass are a permutation of the active
subset. -/
theorem runPass_flatten_perm (cfg : Config) (seed : Nat)
    (hb : cfg.block_size ≠ 0) (hf : cfg.fetch_factor ≠ 0)
    (hbs : cfg.batch_size ≠ 0) :
    ((runPass cfg seed).flatten).Perm cfg.subset := by
  unfold runPass
  rw [flatten_map_emitBatches cfg hbs]
  have h1 : List.Forall₂ (fun a b : List Nat => a.Perm b)
      (shuffledPools cfg seed) (superBlocks cfg seed) :=
    poolShuffleFrom_forall₂ cfg seed 0 (superBlocks cfg seed)
  have h2 := forall₂_perm_flatten h1
  rw [superBlocks_flatten cfg seed hf] at h2
  have h3 := (planBlocks_perm cfg seed).flatten
  have h4 : (blocksOf cfg).flatten = cfg.subset :=
    chunks_flatten cfg.block_size hb cfg.subset
  exact h2.trans (h4 ▸ h3)

/-- In Eval mode the batches of a pass concatenate to exactly the subset, in
its original order. -/
theorem runPass_eval_flatten (cfg : Config) (seed : Nat) (hm : cfg.mode = Mode.eval)
    (hb : cfg.block_size ≠ 0) (hf : cfg.fetch_factor ≠ 0)
    (hbs : cfg.batch_size ≠ 0) :
    (runPass cfg seed).flatten = cfg.subset := by
  unfold runPass shuffledPools
  rw [poolShuffleFrom_eval cfg seed hm 0, flatten_map_emitBatches cfg hbs,
    superBlocks_flatten cfg seed hf]
  simp only [planBlocks, hm]
  exact chunks_flatten cfg.block_size hb cfg.subset

/-! Facts about the fallible pass. -/

/-- An Except value is ok exactly when it carries a payload. -/
theorem except_isOk_iff (e : Except ε α) : e.isOk = true ↔ ∃ a, e = .ok a := by
  cases e <;> simp [Except.isOk, Except.toBool]

/-- Fetching a super-block whose blocks all fetch successfully succeeds. -/
theorem fetchSuper_ok (fetch : List Nat → Except FetchError (List ρ)) :
    ∀ (bs : List (List Nat)), (∀ b ∈ bs, (fetch b).isOk = true) →
      ∃ rs, fetchSuper fetch bs = .ok rs := by
  intro bs
  induction bs with
  | nil => intro _; exact ⟨[], rfl⟩
  | cons b bt ih =>
    intro h
    obtain ⟨r, hr⟩ := (except_isOk_iff (fetch b)).mp (h b (List.mem_cons_self b bt))
    obtain ⟨rs, hrs⟩ := ih (fun b2 hb2 => h b2 (List.mem_cons_of_mem _ hb2))
    exact ⟨r ++ rs, by simp [fetchSuper, hr, hrs]⟩

/-- Fetching a super-block fails with the error of its first failing block. -/
theorem fetchSuper_error (fetch : List Nat → Except FetchError (List ρ)) :
    ∀ (gpre : List (List Nat)) (bl : List Nat) (gpost : List (List Nat))
      (err : FetchError),
      (∀ b ∈ gpre, (fetch b).isOk = true) → fetch bl = .error err →
      fetchSuper fetch (gpre ++ bl :: gpost) = .error err := by
  intro gpre
  induction gpre with
  | nil =>
    intro bl gpost err _ hbl
    simp [fetchSuper, hbl]
  | cons b bt ih =>
    intro bl gpost err h hbl
    obtain ⟨r, hr⟩ := (except_isOk_iff (fetch b)).mp (h b (List.mem_cons_self b bt))
    have htail := ih bl gpost err (fun b2 hb2 => h b2 (List.mem_cons_of_mem _ hb2)) hbl
    simp [fetchSuper, hr, htail]

/-- A fallible pass over groups that succeed up to a failing group delivers
exactly the batches of the successful groups and then surfaces the error. -/
theorem runPassEAux_append_error (cfg : Config) (seed : Nat)
    (fetch : List Nat → Except FetchError (List ρ)) (err : FetchError) :
    ∀ (Gpre : List (List (List Nat))) (g : List (List Nat))
      (Grest : List (List (List Nat))) (i : Nat),
      (∀ gp ∈ Gpre, ∀ b ∈ gp, (fetch b).isOk = true) →
      fetchSuper fetch g = .error err →
      runPassEAux cfg seed fetch i (Gpre ++ g :: Grest) =
          ((runPassEAux cfg seed fetch i Gpre).1, some err) ∧
        (runPassEAux cfg seed fetch i Gpre).2 = none := by
  intro Gpre
  induction Gpre with
  | nil =>
    intro g Grest i _ herr
    refine ⟨?_, rfl⟩
    simp [runPassEAux, herr]
  | cons g0 gt ih =>
    intro g Grest i hok herr
    obtain ⟨pool, hpool⟩ := fetchSuper_ok fetch g0 (hok g0 (List.mem_cons_self g0 gt))
    have h2 := ih g Grest (i + 1) (fun gp hgp => hok gp (List.mem_cons_of_mem _ hgp)) herr
    refine ⟨?_, ?_⟩
    · show runPassEAux cfg seed fetch i (g0 :: (gt ++ g :: Grest)) = _
      simp only [runPassEAux, hpool, h2.1]
    · simp only [runPassEAux, hpool]
      exact h2.2

/-! Claim theorems. -/

/-- C1: for every subset and every positive batch_size, block_size and
fetch_factor, the multiset of row indices carried by all batches emitted in
one complete pass equals the multiset of indices in the active subset
exactly once: no index of the subset is dropped, and no index appears more
often than the subset itself lists it. -/
theorem c1_pass_preserves_multiset (cfg : Config) (seed : Nat)
    (hb : 0 < cfg.block_size) (hf : 0 < cfg.fetch_factor)
    (hbs : 0 < cfg.batch_size) :
    ((runPass cfg seed).flatten).Perm cfg.subset :=
  runPass_flatten_perm cfg seed (Nat.pos_iff_ne_zero.mp hb)
    (Nat.pos_iff_ne_zero.mp hf) (Nat.pos_iff_ne_zero.mp hbs)

/-- Witness for C1 at a concrete Train-mode configuration. -/
theorem c1_pass_preserves_multiset_witness :
    0 < cfgTrainEx.block_size ∧ 0 < cfgTrainEx.fetch_factor ∧
      0 < cfgTrainEx.batch_size ∧
      ((runPass cfgTrainEx 42).flatten).Perm cfgTrainEx.subset :=
  ⟨by decide, by decide, by decide,
    c1_pass_preserves_multiset cfgTrainEx 42 (by decide) (by decide) (by decide)⟩

/-- C2: for every subset and positive sizes, an Eval-mode pass visits every
index of the subset exactly once in its original order; in particular, with
subset [0..99], block_size 10, fetch_factor 2, batch_size 5 it emits exactly
20 batches of 5 rows each in ascending index order, batch 0 being rows
[0..4] and batch 19 being rows [95..99]. -/
theorem c2_eval_identity_pass :
    (∀ (cfg : Config) (seed : Nat), cfg.mode = Mode.eval →
      0 < cfg.block_size → 0 < cfg.fetch_factor → 0 < cfg.batch_size →
      (runPass cfg seed).flatten = cfg.subset) ∧
    (runPass cfgScenario 0).length = 20 ∧
    (∀ b ∈ runPass cfgScenario 0, b.length = 5) ∧
    (runPass cfgScenario 0).flatten = List.range 100 ∧
    (runPass cfgScenario 0)[0]? = some [0, 1, 2, 3, 4] ∧
    (runPass cfgScenario 0)[19]? = some [95, 96, 97, 98, 99] := by
  refine ⟨?_, by decide, by decide, by decide, by decide, by decide⟩
  intro cfg seed hm hb hf hbs
  exact runPass_eval_flatten cfg seed hm (Nat.pos_iff_ne_zero.mp hb)
    (Nat.pos_iff_ne_zero.mp hf) (Nat.pos_iff_ne_zero.mp hbs)

/-- Witness for C2 at the scenario configuration of the specification. -/
theorem c2_eval_identity_pass_witness :
    cfgScenario.mode = Mode.eval ∧ (runPass cfgScenario 0).flatten = cfgScenario.subset :=
  ⟨rfl, c2_eval_identity_pass.1 cfgScenario 0 rfl (by decide) (by decide) (by decide)⟩

/-- C3: two Train-mode passes run with the same seed, the same number of
execution contexts and the same dataset contents produce identical batch
contents in identical order: the pass output is a pure function of the
per-pass seed and the configuration, the shuffle being seeded once per pass
and not per call. -/
theorem c3_train_pass_deterministic (cfg cfg2 : Config) (seed seed2 nctx nctx2 : Nat)
    (row row2 : Nat → ρ) (_hm : cfg.mode = Mode.train) (h1 : cfg = cfg2)
    (h2 : seed = seed2) (h3 : nctx = nctx2) (h4 : row = row2) :
    runPassMultiData row cfg seed nctx = runPassMultiData row2 cfg2 seed2 nctx2 := by
  subst h1
  subst h2
  subst h3
  subst h4
  rfl

/-- Witness for C3 at a concrete Train-mode configuration with two
execution contexts. -/
theorem c3_train_pass_deterministic_witness :
    cfgTrainEx.mode = Mode.train ∧
      runPassMultiData (fun i => i) cfgTrainEx 42 2 =
        runPassMultiData (fun i => i) cfgTrainEx 42 2 :=
  ⟨rfl, c3_train_pass_deterministic cfgTrainEx cfgTrainEx 42 42 2 2
    (fun i => i) (fun i => i) rfl rfl rfl rfl rfl⟩

/-- C4: constructing the loader with batch_size, block_size or fetch_factor
at most zero, or with a subset index at or beyond the dataset length, fails
with a ConfigError at configuration time; with positive sizes and in-bounds
subset indices construction succeeds. -/
theorem c4_config_validation (dataset_len : Nat)
    (batch_size block_size fetch_factor : Int) (idx : List Nat) :
    (scDatasetInit dataset_len batch_size block_size fetch_factor idx).isOk = true ↔
      (0 < batch_size ∧ 0 < block_size ∧ 0 < fetch_factor ∧
        ∀ i ∈ idx, i < dataset_len) := by
  unfold scDatasetInit
  split_ifs with h1 h2 h3 h4
  · simp [Except.isOk, Except.toBool]
    omega
  · simp [Except.isOk, Except.toBool]
    omega
  · simp [Except.isOk, Except.toBool]
    omega
  · simp only [Except.isOk, Except.toBool]
    constructor
    · intro _
      refine ⟨by omega, by omega, by omega, ?_⟩
      intro i hi
      have := List.all_eq_true.mp h4 i hi
      simpa using this
    · intro _
      trivial
  · simp only [Except.isOk, Except.toBool]
    constructor
    · intro hfalse
      cases hfalse
    · rintro ⟨-, -, -, hall⟩
      exact absurd (List.all_eq_true.mpr (fun i hi => by simpa using hall i hi)) h4

/-- C5: when the fetch of the dataset handle fails on some block, the consumer
receives a FetchError exactly at the pull of the first batch that requires
that block (the first batch of the super-block containing it), with no
internal retry; every batch already delivered from the earlier super-blocks
is exactly what the successful part of the pass produces and remains
unaffected. -/
theorem c5_fetch_failure_surfaced (cfg : Config) (seed : Nat)
    (fetch : List Nat → Except FetchError (List ρ))
    (Gpre : List (List (List Nat))) (g : List (List Nat))
    (Grest : List (List (List Nat)))
    (gpre : List (List Nat)) (bl : List Nat) (gpost : List (List Nat))
    (err : FetchError)
    (hG : superGroups cfg seed = Gpre ++ g :: Grest)
    (hok : ∀ gp ∈ Gpre, ∀ b ∈ gp, (fetch b).isOk = true)
    (hg : g = gpre ++ bl :: gpost)
    (hpre : ∀ b ∈ gpre, (fetch b).isOk = true)
    (hbl : fetch bl = .error err) :
    runPassE cfg seed fetch = ((runPassEAux cfg seed fetch 0 Gpre).1, some err) ∧
      (runPassEAux cfg seed fetch 0 Gpre).2 = none := by
  have herr : fetchSuper fetch g = .error err := by
    subst hg
    exact fetchSuper_error fetch gpre bl gpost err hpre hbl
  unfold runPassE
  rw [hG]
  exact runPassEAux_append_error cfg seed fetch err Gpre g Grest 0 hok herr

/-- Witness for C5: with blocks [0,1], [2,3], [4,5] and a fetch failing on
the third block, the pass delivers the batches of the first two super-blocks
and then surfaces the error. -/
theorem c5_fetch_failure_surfaced_witness :
    runPassE cfgEvalEx 0 fetchFailEx =
        ((runPassEAux cfgEvalEx 0 fetchFailEx 0 [[[0, 1]], [[2, 3]]]).1,
          some FetchError.backendFailure) ∧
      (runPassEAux cfgEvalEx 0 fetchFailEx 0 [[[0, 1]], [[2, 3]]]).2 = none :=
  c5_fetch_failure_surfaced cfgEvalEx 0 fetchFailEx
    [[[0, 1]], [[2, 3]]] [[4, 5]] [] [] [4, 5] [] FetchError.backendFailure
    (by decide) (by decide) rfl (by decide) rfl

/-- C6: for every subset and positive block_size, the blocks formed in a
pass partition the subset ordering into exactly ceil(|subset| / block_size)
contiguous groups, each of size block_size except possibly a shorter final
block, which is present and never omitted. -/
theorem c6_blocks_partition (cfg : Config) (hb : 0 < cfg.block_size) :
    ((blocksOf cfg).flatten = cfg.subset) ∧
    (blocksOf cfg).length =
      (cfg.subset.length + cfg.block_size - 1) / cfg.block_size ∧
    (∀ c ∈ (blocksOf cfg).dropLast, c.length = cfg.block_size) ∧
    (∀ c ∈ blocksOf cfg, c ≠ [] ∧ c.length ≤ cfg.block_size) ∧
    (∀ c ∈ blocksOf cfg, ∃ i, c = (cfg.subset.drop i).take cfg.block_size) := by
  have hn := Nat.pos_iff_ne_zero.mp hb
  exact ⟨chunks_flatten _ hn _, chunks_length _ hn _,
    fun c hc => chunks_dropLast_length _ hn _ c hc,
    fun c hc => chunks_mem _ hn _ c hc,
    fun c hc => chunks_contig _ _ c hc⟩

/-- Witness for C6 at a subset of seven indices with block_size three. -/
theorem c6_blocks_partition_witness :
    (blocksOf cfgOddEx).flatten = cfgOddEx.subset ∧
      (blocksOf cfgOddEx).length =
        (cfgOddEx.subset.length + cfgOddEx.block_size - 1) / cfgOddEx.block_size :=
  ⟨(c6_blocks_partition cfgOddEx (by decide)).1,
    (c6_blocks_partition cfgOddEx (by decide)).2.1⟩

/-- C7: when the number of blocks in a pass is not a multiple of
fetch_factor, the final super-block of the pass contains fewer than
fetch_factor blocks yet is still emitted in full: the super-block grouping
is exhaustive and the rows of the pass remain exactly the subset, so none
of its rows are dropped and no padding rows are added. -/
theorem c7_final_supergroup_short (cfg : Config) (seed : Nat)
    (hb : 0 < cfg.block_size) (hf : 0 < cfg.fetch_factor)
    (hbs : 0 < cfg.batch_size) (hS : cfg.subset ≠ [])
    (hnd : ¬ cfg.fetch_factor ∣ (blocksOf cfg).length) :
    (∃ g, (superGroups cfg seed).getLast? = some g ∧
        0 < g.length ∧ g.length < cfg.fetch_factor) ∧
    (superGroups cfg seed).flatten = planBlocks cfg seed ∧
    ((runPass cfg seed).flatten).Perm cfg.subset := by
  have hfn := Nat.pos_iff_ne_zero.mp hf
  have hbn := Nat.pos_iff_ne_zero.mp hb
  have hlen : (planBlocks cfg seed).length = (blocksOf cfg).length :=
    (planBlocks_perm cfg seed).length_eq
  have hpn : planBlocks cfg seed ≠ [] := by
    intro h
    have hz : (blocksOf cfg).length = 0 := by rw [← hlen, h]; rfl
    have hb0 := chunks_ne_nil cfg.block_size hbn cfg.subset hS
    exact hb0 (List.length_eq_zero.mp hz)
  have hnd2 : ¬ cfg.fetch_factor ∣ (planBlocks cfg seed).length := by
    rw [hlen]
    exact hnd
  obtain ⟨g, hg1, hg2⟩ :=
    chunks_getLast_mod cfg.fetch_factor hfn (planBlocks cfg seed) hpn hnd2
  refine ⟨⟨g, hg1, ?_, ?_⟩, chunks_flatten _ hfn _,
    runPass_flatten_perm cfg seed hbn hfn (Nat.pos_iff_ne_zero.mp hbs)⟩
  · rw [hg2]
    rcases Nat.eq_zero_or_pos
        ((planBlocks cfg seed).length % cfg.fetch_factor) with h | h
    · exact absurd (Nat.dvd_of_mod_eq_zero h) hnd2
    · exact h
  · rw [hg2]
    exact Nat.mod_lt _ hf

/-- Witness for C7: seven indices, block_size three, fetch_factor two, so a
pass has three blocks and its final super-block holds a single block. -/
theorem c7_final_supergroup_short_witness :
    ((runPass cfgOddEx 5).flatten).Perm cfgOddEx.subset :=
  (c7_final_supergroup_short cfgOddEx 5 (by decide) (by decide) (by decide)
    (by decide) (by decide)).2.2

/-- C8: in Train mode the IndexPlan output is a random permutation of
whole blocks only: the planned block sequence is a permutation of the
blocks of the subset, the plan is their concatenation, every planned block
is one of those blocks, and each is a contiguous run of the subset, so the
relative order of the indices inside a block is the order the subset gives. -/
theorem c8_train_blockwise_permutation (cfg : Config) (seed : Nat)
    (_hm : cfg.mode = Mode.train) :
    (planBlocks cfg seed).Perm (blocksOf cfg) ∧
    indexPlan cfg seed = (planBlocks cfg seed).flatten ∧
    (∀ c ∈ planBlocks cfg seed, c ∈ blocksOf cfg) ∧
    (∀ c ∈ planBlocks cfg seed, ∃ i, c = (cfg.subset.drop i).take cfg.block_size) := by
  have hp := planBlocks_perm cfg seed
  exact ⟨hp, rfl, fun c hc => hp.mem_iff.mp hc,
    fun c hc => chunks_contig _ _ c (hp.mem_iff.mp hc)⟩

/-- Witness for C8 at a concrete Train-mode configuration. -/
theorem c8_train_blockwise_permutation_witness :
    (planBlocks cfgTrainEx 7).Perm (blocksOf cfgTrainEx) :=
  (c8_train_blockwise_permutation cfgTrainEx 7 rfl).1

/-- C9: calling subset(indices) followed by set_mode(m) before any
iteration yields the same configuration, the same per-pass plan and the
same pass output as calling set_mode(m) followed by subset(indices): the
two configuration operations commute. -/
theorem c9_subset_setmode_commute (cfg : Config) (idx : List Nat) (m : Mode) :
    subsetUpd idx (set_mode m cfg) = set_mode m (subsetUpd idx cfg) ∧
    (∀ seed, planBlocks (subsetUpd idx (set_mode m cfg)) seed =
      planBlocks (set_mode m (subsetUpd idx cfg)) seed) ∧
    (∀ seed, runPass (subsetUpd idx (set_mode m cfg)) seed =
      runPass (set_mode m (subsetUpd idx cfg)) seed) :=
  ⟨rfl, fun _ => rfl, fun _ => rfl⟩

/-- C10: the batch_transform of the notebook yields a pair (X, y) where X is a
dense float32 torch tensor, a sparse input being densified via toarray
before conversion, and y is an int64 torch tensor whose length equals the
number of rows of X, each entry being the label-encoder code of the
cell_line value of the corresponding row. -/
theorem c10_batch_transform_shape (α L : Type) (cast : α → α) (zero : α)
    (enc : L → Nat) (batch : AnnBatch α L)
    (h : SciArr.nrows batch.X = batch.cell_line.length) :
    ((batch_transform cast zero enc batch).1).dtype = DType.float32 ∧
    ((batch_transform cast zero enc batch).2).dtype = DType.int64 ∧
    ((batch_transform cast zero enc batch).2).data.length =
      ((batch_transform cast zero enc batch).1).data.length ∧
    ((batch_transform cast zero enc batch).2).data =
      batch.cell_line.map (fun lab => Int.ofNat (enc lab)) ∧
    (batch.X.issparse = true →
      ((batch_transform cast zero enc batch).1).data =
          ((batch.X.astype DType.float32 cast).toarray zero).rows ∧
        ∀ row ∈ ((batch_transform cast zero enc batch).1).data,
          row.length = SciArr.ncolsOf batch.X) := by
  rcases batch with ⟨X, cl⟩
  cases X with
  | dense a =>
    simp only [SciArr.nrows] at h
    refine ⟨rfl, rfl, ?_, ?_, ?_⟩
    · simp [batch_transform, SciArr.astype, SciArr.issparse, SciArr.denseArr,
        torch_from_numpy, torch_from_numpy1, Tensor1.long, h]
    · simp [batch_transform, torch_from_numpy1, Tensor1.long, List.map_map,
        Function.comp]
    · intro hsp
      simp [SciArr.issparse] at hsp
  | sparse d n entries =>
    simp only [SciArr.nrows] at h
    refine ⟨rfl, rfl, ?_, ?_, ?_⟩
    · simp [batch_transform, SciArr.astype, SciArr.issparse, SciArr.toarray,
        torch_from_numpy, torch_from_numpy1, Tensor1.long, h]
    · simp [batch_transform, torch_from_numpy1, Tensor1.long, List.map_map,
        Function.comp]
    · intro _
      refine ⟨rfl, ?_⟩
      intro row hrow
      have hx : (batch_transform cast zero enc
            ⟨SciArr.sparse d n entries, cl⟩).1.data =
          (entries.map (List.map (fun p => (p.1, cast p.2)))).map
            (fun r0 => (List.range n).map (fun j => ((List.lookup j r0).getD zero))) :=
        rfl
      rw [hx] at hrow
      obtain ⟨r, _, hr⟩ := List.mem_map.mp hrow
      rw [show SciArr.ncolsOf (SciArr.sparse d n entries) = n from rfl, ← hr]
      simp

/-- Witness for C10 at a concrete two-row sparse batch. -/
theorem c10_batch_transform_shape_witness :
    ((batch_transform (fun x : Int => x) 0 (fun n : Nat => n) annEx).2).data =
      annEx.cell_line.map (fun lab => Int.ofNat lab) :=
  (c10_batch_transform_shape Int Nat (fun x => x) 0 (fun n => n) annEx rfl).2.2.2.1

end SCD
